import Mathlib

/-!
Shallow embedding of the exam-scheduler core (`app.py`): the Welsh-Powell
greedy coloring engine `welsh_powell`, the conflict-graph builder
`build_conflicts_from_enrollments`, and the schedule mapper
`schedule_from_coloring`.  Python dictionaries are modelled as association
lists (insertion order preserved, keys looked up front to back), Python
sets as deduplicated lists, and Python's stable `sorted` as insertion sort
with the corresponding key relation.
-/

namespace ExamScheduler

/-- An adjacency mapping, as passed to `welsh_powell`: a Python dict from
vertex (exam identifier) to its set of neighbours.  Keys of an actual
Python dict are unique; theorems that need this take it as a hypothesis. -/
abbrev Adj := List (String × List String)

/-- A coloring: the Python dict from vertex to assigned color, in insertion
order. -/
abbrev Coloring := List (String × Nat)

/-- Dict lookup: `col[v]` / `v in color`, searching entries front to back. -/
def lookupC : Coloring → String → Option Nat
  | [], _ => none
  | p :: rest, v => if p.1 = v then some p.2 else lookupC rest v

/-- The keys of the adjacency dict (`adj.keys()`). -/
def adjKeys (adj : Adj) : List String := adj.map Prod.fst

/-- The neighbour set stored under key `v` (`adj[v]`, empty when absent;
with duplicate keys the union of the entries, which cannot arise from a
Python dict). -/
def adjNbrs (adj : Adj) (v : String) : List String :=
  (adj.filter (fun p => decide (p.1 = v))).flatMap Prod.snd

/-- The vertex set collected by `welsh_powell`: all keys of `adj` together
with every vertex occurring in some neighbour set (a Python `set`, modelled
as a deduplicated list). -/
def verticesList (adj : Adj) : List String :=
  (adj.map Prod.fst ++ adj.flatMap Prod.snd).dedup

/-- The symmetrised adjacency `full` built by `welsh_powell`:
`full[v] = the set of u with u ∈ adj[v] or v ∈ adj[u]`. -/
def fullNbrs (adj : Adj) (v : String) : List String :=
  (adjNbrs adj v ++ (adj.filter (fun p => decide (v ∈ p.2))).map Prod.fst).dedup

/-- `len(full[v])`: the degree of `v` in the symmetrised graph. -/
def degFull (adj : Adj) (v : String) : Nat := (fullNbrs adj v).length

/-- Lexicographic comparison of character lists by code point, the order
Python uses on strings. -/
def leChars : List Char → List Char → Bool
  | [], _ => true
  | _ :: _, [] => false
  | a :: as, b :: bs =>
    if a.toNat < b.toNat then true
    else if b.toNat < a.toNat then false
    else leChars as bs

/-- `x <= y` on strings: lexicographic by code point, as in Python. -/
def strLe (x y : String) : Bool := leChars x.data y.data

/-- The sort key used at `order = sorted(full.keys(), key=lambda x:
(-len(full[x]), str(x)))`: `x` comes no later than `y` iff `x` has larger
degree, or equal degree and `x ≤ y` lexicographically. -/
def wpLE (adj : Adj) (x y : String) : Prop :=
  degFull adj y < degFull adj x ∨ (degFull adj x = degFull adj y ∧ strLe x y = true)

instance (adj : Adj) : DecidableRel (wpLE adj) := fun x y => by
  unfold wpLE; exact inferInstance

/-- The fixed vertex order of `welsh_powell`: vertices sorted by descending
symmetrised degree, ties broken by ascending identifier. -/
def order (adj : Adj) : List String := (verticesList adj).insertionSort (wpLE adj)

/-- The guard of the inner loop: `all(nbr not in color or color[nbr] !=
current_color for nbr in full[u])`. -/
def okToJoin (adj : Adj) (col : Coloring) (c : Nat) (u : String) : Bool :=
  (fullNbrs adj u).all (fun nbr =>
    match lookupC col nbr with
    | none => true
    | some c2 => decide (c2 ≠ c))

/-- One step of the inner loop of `welsh_powell` for candidate `u`, growing
the color class `c` seeded by `v`. -/
def growStep (adj : Adj) (c : Nat) (v : String) (col : Coloring) (u : String) :
    Coloring :=
  if lookupC col u = none then
    if okToJoin adj col c u then
      if v ≠ u then col ++ [(u, c)] else col
    else col
  else col

/-- One step of the outer loop of `welsh_powell` at vertex `v`: when `v` is
uncolored, assign it the current color, run the inner loop over the fixed
order, and increment the current color. -/
def outerStep (adj : Adj) (st : Coloring × Nat) (v : String) : Coloring × Nat :=
  if lookupC st.1 v = none then
    ((order adj).foldl (growStep adj st.2 v) (st.1 ++ [(v, st.2)]), st.2 + 1)
  else st

/-- The Welsh-Powell greedy coloring of `app.py`. -/
def welsh_powell (adj : Adj) : Coloring :=
  ((order adj).foldl (outerStep adj) ([], 1)).1

/-! ### Conflict graph builder -/

/-- An enrollment mapping: Python dict from student identifier to the list
of exams that student takes. -/
abbrev Enrollments := List (String × List String)

/-- All index pairs `i < j` of a list, as ordered pairs
`(courses[i], courses[j])` — the double loop `for i ... for j in
range(i+1, ...)` of `build_conflicts_from_enrollments`. -/
def pairsOf : List String → List (String × String)
  | [] => []
  | a :: rest => rest.map (fun b => (a, b)) ++ pairsOf rest

/-- Every `(a, b) = (courses[i], courses[j])` pair over all students. -/
def allPairs (enrollments : Enrollments) : List (String × String) :=
  enrollments.flatMap (fun s => pairsOf s.2)

/-- The conflict set of exam `e`: every exam paired with `e` by some
student (`conflicts[a].add(b); conflicts[b].add(a)`), as a set. -/
def conflictNbrs (enrollments : Enrollments) (e : String) : List String :=
  ((allPairs enrollments).filterMap (fun q =>
    if q.1 = e then some q.2 else if q.2 = e then some q.1 else none)).dedup

/-- `exams = sorted({e for courses in enrollments.values() for e in
courses})`: the deduplicated exam set in ascending identifier order. -/
def examsOf (enrollments : Enrollments) : List String :=
  ((enrollments.flatMap Prod.snd).dedup).insertionSort (fun a b => strLe a b = true)

/-- `build_conflicts_from_enrollments` from `app.py`: the conflict dict,
keyed by the sorted exam set. -/
def build_conflicts_from_enrollments (enrollments : Enrollments) : Adj :=
  (examsOf enrollments).map (fun e => (e, conflictNbrs enrollments e))

/-! ### Schedule mapper -/

/-- One row of the schedule data frame produced by
`schedule_from_coloring`. -/
structure Row where
  Exam : String
  Slot : Nat
  start : Int
  duration : Int
  TimeLabel : String
deriving DecidableEq, Repr

/-- Python's `f"...:02d"` on an integer: pad with a leading zero to width
two (a sign counts toward the width, as in Python). -/
def pad02 (n : Int) : String :=
  if 0 ≤ n ∧ n < 10 then "0" ++ toString n else toString n

/-- The key `lambda x: (x[1], x[0])` used to sort `coloring.items()`:
ascending color, then ascending exam identifier. -/
def itemLE (p q : String × Nat) : Prop :=
  p.2 < q.2 ∨ (p.2 = q.2 ∧ strLe p.1 q.1 = true)

instance : DecidableRel itemLE := fun p q => by
  unfold itemLE; exact inferInstance

/-- The row built for one `(exam, color)` item of the coloring:
`start = slot_start_hour + (c - 1) * slot_duration` and the human-readable
window label. -/
def mkRow (slot_start_hour slot_duration : Int) (p : String × Nat) : Row :=
  { Exam := p.1
    Slot := p.2
    start := slot_start_hour + ((p.2 : Int) - 1) * slot_duration
    duration := slot_duration
    TimeLabel := "Slot " ++ toString p.2 ++ " (" ++
      pad02 (slot_start_hour + ((p.2 : Int) - 1) * slot_duration) ++
      ":00 - " ++
      pad02 (slot_start_hour + ((p.2 : Int) - 1) * slot_duration +
        slot_duration) ++ ":00)" }

/-- `schedule_from_coloring` from `app.py`: one row per exam of the
coloring, sorted by (slot, exam). -/
def schedule_from_coloring (coloring : Coloring)
    (slot_start_hour slot_duration : Int) : List Row :=
  (coloring.insertionSort itemLE).map (mkRow slot_start_hour slot_duration)

/-! ### Properties used by the verification -/

/-- Partial properness: no two distinct vertices adjacent in the
symmetrised graph hold the same color. -/
def ColorsProper (adj : Adj) (col : Coloring) : Prop :=
  ∀ a b k, a ≠ b → b ∈ fullNbrs adj a →
    lookupC col a = some k → lookupC col b ≠ some k

/-- The coloring dict has each key at most once. -/
abbrev KeysNodup (col : Coloring) : Prop := (col.map Prod.fst).Nodup

/-- The invariant of the outer loop state `(color, current_color)`. -/
structure OuterOK (adj : Adj) (st : Coloring × Nat) : Prop where
  proper : ColorsProper adj st.1
  nodup : KeysNodup st.1
  cpos : 1 ≤ st.2
  bounds : ∀ x k, lookupC st.1 x = some k → 1 ≤ k ∧ k < st.2
  contig : ∀ k, 1 ≤ k → k < st.2 → ∃ x, lookupC st.1 x = some k
  dom : ∀ x k, lookupC st.1 x = some k → x ∈ verticesList adj

/-! ### Decidable hypotheses about adjacency inputs -/

/-- The adjacency stores no self-loop: no key lists itself. -/
def irreflB (adj : Adj) : Bool := adj.all (fun p => decide (p.1 ∉ p.2))

/-- The adjacency is symmetric as stored: whenever `u` is listed under
`v`, `v` is listed under `u`. -/
def symmB (adj : Adj) : Bool :=
  adj.all (fun p => p.2.all (fun u => decide (p.1 ∈ adjNbrs adj u)))

/-- Two adjacency dicts have the same key set. -/
abbrev KeysIff (a1 a2 : Adj) : Prop := ∀ v, v ∈ adjKeys a1 ↔ v ∈ adjKeys a2

/-- Two adjacency dicts store the same neighbour set at every vertex. -/
abbrev NbrsIff (a1 a2 : Adj) : Prop :=
  ∀ v u, u ∈ adjNbrs a1 v ↔ u ∈ adjNbrs a2 v

/-- The two adjacency dicts describe the same graph: same key set and,
key by key, the same neighbour set. -/
def graphEqB (a1 a2 : Adj) : Bool :=
  (adjKeys a1).all (fun v => decide (v ∈ adjKeys a2)) &&
  (adjKeys a2).all (fun v => decide (v ∈ adjKeys a1)) &&
  (adjKeys a1 ++ adjKeys a2).all (fun v =>
    (adjNbrs a1 v).all (fun u => decide (u ∈ adjNbrs a2 v)) &&
    (adjNbrs a2 v).all (fun u => decide (u ∈ adjNbrs a1 v)))

/-! ### Lookup lemmas -/

theorem lookupC_append_some {l1 l2 : Coloring} {v : String} {k : Nat}
    (h : lookupC l1 v = some k) : lookupC (l1 ++ l2) v = some k := by
  induction l1 with
  | nil => simp [lookupC] at h
  | cons p rest ih =>
    simp only [lookupC, List.cons_append] at h ⊢
    by_cases hp : p.1 = v
    · rwa [if_pos hp] at h ⊢
    · rw [if_neg hp] at h ⊢
      exact ih h

theorem lookupC_append_none {l1 l2 : Coloring} {v : String}
    (h : lookupC l1 v = none) : lookupC (l1 ++ l2) v = lookupC l2 v := by
  induction l1 with
  | nil => rfl
  | cons p rest ih =>
    by_cases hp : p.1 = v
    · simp [lookupC, hp] at h
    · simp only [lookupC, if_neg hp] at h
      simp only [List.cons_append, lookupC, if_neg hp]
      exact ih h

theorem lookupC_eq_none_iff {col : Coloring} {v : String} :
    lookupC col v = none ↔ v ∉ col.map Prod.fst := by
  induction col with
  | nil => simp [lookupC]
  | cons p rest ih =>
    by_cases hp : p.1 = v
    · simp [lookupC, hp]
    · simp [lookupC, hp, ih, Ne.symm hp]

theorem mem_keys_of_lookupC_some {col : Coloring} {v : String} {k : Nat}
    (h : lookupC col v = some k) : v ∈ col.map Prod.fst := by
  by_contra hv
  rw [← lookupC_eq_none_iff] at hv
  rw [h] at hv
  exact Option.noConfusion hv

theorem lookupC_some_mem {col : Coloring} {v : String} {k : Nat}
    (h : lookupC col v = some k) : (v, k) ∈ col := by
  induction col with
  | nil => simp [lookupC] at h
  | cons p rest ih =>
    by_cases hp : p.1 = v
    · simp only [lookupC, if_pos hp] at h
      obtain ⟨a, b⟩ := p
      injection h with h
      subst hp
      subst h
      exact List.mem_cons_self _ _
    · simp only [lookupC, if_neg hp] at h
      exact List.mem_cons_of_mem _ (ih h)

theorem lookupC_append_single {col : Coloring} {u x : String} {c k : Nat} :
    lookupC (col ++ [(u, c)]) x = some k ↔
      lookupC col x = some k ∨ (lookupC col x = none ∧ u = x ∧ c = k) := by
  cases h : lookupC col x with
  | some c2 =>
    rw [lookupC_append_some h]
    simp
  | none =>
    rw [lookupC_append_none h]
    by_cases hu : u = x <;> simp [lookupC, hu, eq_comm]

/-! ### The string order -/

theorem leChars_total : ∀ as bs : List Char,
    leChars as bs = true ∨ leChars bs as = true := by
  intro as
  induction as with
  | nil => intro bs; left; rfl
  | cons a as ih =>
    intro bs
    cases bs with
    | nil => right; rfl
    | cons b bs =>
      simp only [leChars]
      rcases Nat.lt_trichotomy a.toNat b.toNat with h | h | h
      · left; simp [h]
      · have h1 : ¬ a.toNat < b.toNat := by omega
        have h2 : ¬ b.toNat < a.toNat := by omega
        simp only [if_neg h1, if_neg h2]
        exact ih bs
      · right; simp [h]

theorem leChars_trans : ∀ as bs cs : List Char,
    leChars as bs = true → leChars bs cs = true → leChars as cs = true := by
  intro as
  induction as with
  | nil => intro bs cs _ _; rfl
  | cons a as ih =>
    intro bs cs hab hbc
    cases bs with
    | nil => simp [leChars] at hab
    | cons b bs =>
      cases cs with
      | nil => simp [leChars] at hbc
      | cons c cs =>
        simp only [leChars] at hab hbc ⊢
        by_cases h1 : a.toNat < b.toNat
        · by_cases h2 : b.toNat < c.toNat
          · simp [show a.toNat < c.toNat by omega]
          · by_cases h3 : c.toNat < b.toNat
            · rw [if_neg h2, if_pos h3] at hbc
              exact absurd hbc (by simp)
            · simp [show a.toNat < c.toNat by omega]
        · by_cases h1' : b.toNat < a.toNat
          · rw [if_neg h1, if_pos h1'] at hab
            exact absurd hab (by simp)
          · by_cases h2 : b.toNat < c.toNat
            · simp [show a.toNat < c.toNat by omega]
            · by_cases h3 : c.toNat < b.toNat
              · rw [if_neg h2, if_pos h3] at hbc
                exact absurd hbc (by simp)
              · rw [if_neg h1, if_neg h1'] at hab
                rw [if_neg h2, if_neg h3] at hbc
                rw [if_neg (show ¬ a.toNat < c.toNat by omega),
                  if_neg (show ¬ c.toNat < a.toNat by omega)]
                exact ih bs cs hab hbc

theorem leChars_antisymm : ∀ as bs : List Char,
    leChars as bs = true → leChars bs as = true → as = bs := by
  intro as
  induction as with
  | nil =>
    intro bs hab hba
    cases bs with
    | nil => rfl
    | cons b bs => simp [leChars] at hba
  | cons a as ih =>
    intro bs hab hba
    cases bs with
    | nil => simp [leChars] at hab
    | cons b bs =>
      simp only [leChars] at hab hba
      by_cases h1 : a.toNat < b.toNat
      · rw [if_neg (by omega : ¬ b.toNat < a.toNat), if_pos h1] at hba
        exact absurd hba (by simp)
      · by_cases h2 : b.toNat < a.toNat
        · rw [if_neg h1, if_pos h2] at hab
          exact absurd hab (by simp)
        · rw [if_neg h1, if_neg h2] at hab
          rw [if_neg h2, if_neg h1] at hba
          have hn : a.toNat = b.toNat := by omega
          have ha : a = b := Char.eq_of_val_eq (UInt32.toNat.inj hn)
          rw [ha, ih bs hab hba]

theorem strLe_total (x y : String) : strLe x y = true ∨ strLe y x = true :=
  leChars_total x.data y.data

theorem strLe_trans {x y z : String} (h1 : strLe x y = true)
    (h2 : strLe y z = true) : strLe x z = true :=
  leChars_trans x.data y.data z.data h1 h2

theorem strLe_antisymm {x y : String} (h1 : strLe x y = true)
    (h2 : strLe y x = true) : x = y := by
  have h := leChars_antisymm x.data y.data h1 h2
  cases x
  cases y
  exact congrArg String.mk h

/-! ### The Welsh-Powell vertex order -/

theorem wpLE_total (adj : Adj) (x y : String) : wpLE adj x y ∨ wpLE adj y x := by
  unfold wpLE
  rcases Nat.lt_trichotomy (degFull adj x) (degFull adj y) with h | h | h
  · right; left; exact h
  · rcases strLe_total x y with hs | hs
    · left; right; exact ⟨h, hs⟩
    · right; right; exact ⟨h.symm, hs⟩
  · left; left; exact h

theorem wpLE_trans (adj : Adj) {x y z : String}
    (h1 : wpLE adj x y) (h2 : wpLE adj y z) : wpLE adj x z := by
  unfold wpLE at h1 h2 ⊢
  rcases h1 with h1 | ⟨h1, h1s⟩
  · rcases h2 with h2 | ⟨h2, _⟩
    · left; omega
    · left; omega
  · rcases h2 with h2 | ⟨h2, h2s⟩
    · left; omega
    · right; exact ⟨by omega, strLe_trans h1s h2s⟩

theorem wpLE_antisymm (adj : Adj) {x y : String}
    (h1 : wpLE adj x y) (h2 : wpLE adj y x) : x = y := by
  unfold wpLE at h1 h2
  rcases h1 with h1 | ⟨h1, h1s⟩
  · rcases h2 with h2 | ⟨h2, _⟩ <;> omega
  · rcases h2 with h2 | ⟨h2, h2s⟩
    · omega
    · exact strLe_antisymm h1s h2s

theorem order_perm (adj : Adj) : (order adj).Perm (verticesList adj) :=
  List.perm_insertionSort _ _

theorem order_sorted (adj : Adj) : (order adj).Sorted (wpLE adj) := by
  haveI : IsTotal String (wpLE adj) := ⟨wpLE_total adj⟩
  haveI : IsTrans String (wpLE adj) := ⟨fun _ _ _ => wpLE_trans adj⟩
  exact List.sorted_insertionSort _ _

theorem mem_order {adj : Adj} {v : String} :
    v ∈ order adj ↔ v ∈ verticesList adj :=
  (order_perm adj).mem_iff

/-! ### Membership in the graph structures -/

theorem mem_adjNbrs {adj : Adj} {v u : String} :
    u ∈ adjNbrs adj v ↔ ∃ p, p ∈ adj ∧ p.1 = v ∧ u ∈ p.2 := by
  simp only [adjNbrs, List.mem_flatMap, List.mem_filter, decide_eq_true_eq]
  constructor
  · rintro ⟨p, ⟨hp, hv⟩, hu⟩
    exact ⟨p, hp, hv, hu⟩
  · rintro ⟨p, hp, hv, hu⟩
    exact ⟨p, ⟨hp, hv⟩, hu⟩

theorem mem_fullNbrs {adj : Adj} {v u : String} :
    u ∈ fullNbrs adj v ↔ u ∈ adjNbrs adj v ∨ v ∈ adjNbrs adj u := by
  simp only [fullNbrs, List.mem_dedup, List.mem_append, List.mem_map,
    List.mem_filter, decide_eq_true_eq]
  constructor
  · rintro (h | ⟨p, ⟨hp, hv⟩, hu⟩)
    · left; exact h
    · right; exact mem_adjNbrs.mpr ⟨p, hp, hu, hv⟩
  · rintro (h | h)
    · left; exact h
    · obtain ⟨p, hp, hu, hv⟩ := mem_adjNbrs.mp h
      right; exact ⟨p, ⟨hp, hv⟩, hu⟩

theorem fullNbrs_symm {adj : Adj} {v u : String} :
    u ∈ fullNbrs adj v ↔ v ∈ fullNbrs adj u := by
  rw [mem_fullNbrs, mem_fullNbrs, or_comm]

theorem fullNbrs_nodup (adj : Adj) (v : String) : (fullNbrs adj v).Nodup :=
  List.nodup_dedup _

theorem adjNbrs_subset_fullNbrs {adj : Adj} {v u : String}
    (h : u ∈ adjNbrs adj v) : u ∈ fullNbrs adj v :=
  mem_fullNbrs.mpr (Or.inl h)

theorem mem_verticesList_iff {adj : Adj} {x : String} :
    x ∈ verticesList adj ↔ x ∈ adjKeys adj ∨ ∃ w, x ∈ adjNbrs adj w := by
  simp only [verticesList, List.mem_dedup, List.mem_append, adjKeys,
    List.mem_flatMap]
  constructor
  · rintro (h | ⟨p, hp, hx⟩)
    · left; exact h
    · right; exact ⟨p.1, mem_adjNbrs.mpr ⟨p, hp, rfl, hx⟩⟩
  · rintro (h | ⟨w, hw⟩)
    · left; exact h
    · obtain ⟨p, hp, _, hx⟩ := mem_adjNbrs.mp hw
      right; exact ⟨p, hp, hx⟩

theorem verticesList_nodup (adj : Adj) : (verticesList adj).Nodup :=
  List.nodup_dedup _

theorem key_mem_verticesList {adj : Adj} {v : String}
    (h : v ∈ adjKeys adj) : v ∈ verticesList adj :=
  mem_verticesList_iff.mpr (Or.inl h)

theorem nbr_mem_verticesList {adj : Adj} {w u : String}
    (h : u ∈ adjNbrs adj w) : u ∈ verticesList adj :=
  mem_verticesList_iff.mpr (Or.inr ⟨w, h⟩)

theorem src_mem_verticesList {adj : Adj} {w u : String}
    (h : u ∈ adjNbrs adj w) : w ∈ verticesList adj := by
  obtain ⟨p, hp, hw, _⟩ := mem_adjNbrs.mp h
  exact key_mem_verticesList (hw ▸ List.mem_map_of_mem Prod.fst hp)

theorem fullNbrs_endpoints_mem {adj : Adj} {a b : String}
    (h : b ∈ fullNbrs adj a) :
    a ∈ verticesList adj ∧ b ∈ verticesList adj := by
  rcases mem_fullNbrs.mp h with h | h
  · exact ⟨src_mem_verticesList h, nbr_mem_verticesList h⟩
  · exact ⟨nbr_mem_verticesList h, src_mem_verticesList h⟩

theorem adjNbrs_eq_nil_of_not_key {adj : Adj} {v : String}
    (h : v ∉ adjKeys adj) : adjNbrs adj v = [] := by
  unfold adjNbrs
  have : adj.filter (fun p => decide (p.1 = v)) = [] := by
    rw [List.filter_eq_nil_iff]
    intro p hp
    simp only [decide_eq_true_eq]
    intro hv
    exact h (hv ▸ List.mem_map_of_mem Prod.fst hp)
  rw [this]
  rfl

/-! ### The inner-loop guard -/

theorem okToJoin_iff {adj : Adj} {col : Coloring} {c : Nat} {u : String} :
    okToJoin adj col c u = true ↔
      ∀ nbr ∈ fullNbrs adj u, lookupC col nbr ≠ some c := by
  unfold okToJoin
  rw [List.all_eq_true]
  constructor
  · intro h nbr hn
    have := h nbr hn
    cases heq : lookupC col nbr with
    | none => simp
    | some c2 =>
      rw [heq] at this
      simp only [decide_eq_true_eq] at this
      simp [this]
  · intro h nbr hn
    cases heq : lookupC col nbr with
    | none => rfl
    | some c2 =>
      have := h nbr hn
      rw [heq] at this
      simp only [ne_eq, Option.some.injEq] at this
      simp [this]

/-! ### Invariants of the coloring loops -/

theorem colorsProper_nil (adj : Adj) : ColorsProper adj [] := by
  intro a b k _ _ ha
  simp [lookupC] at ha

theorem keysNodup_nil : KeysNodup [] := List.nodup_nil

theorem keysNodup_append {col : Coloring} {u : String} {c : Nat}
    (h : KeysNodup col) (hu : lookupC col u = none) :
    KeysNodup (col ++ [(u, c)]) := by
  unfold KeysNodup at h ⊢
  rw [List.map_append]
  simp only [List.map_cons, List.map_nil]
  rw [List.nodup_append]
  refine ⟨h, List.nodup_singleton u, ?_⟩
  intro x hx
  simp only [List.mem_singleton]
  intro hxu
  subst hxu
  exact (lookupC_eq_none_iff.mp hu) hx

/-- Appending a fresh vertex whose symmetrised neighbours all avoid color
`c` preserves properness. -/
theorem colorsProper_append {adj : Adj} {col : Coloring} {u : String} {c : Nat}
    (hp : ColorsProper adj col) (_hu : lookupC col u = none)
    (hok : ∀ nbr ∈ fullNbrs adj u, lookupC col nbr ≠ some c) :
    ColorsProper adj (col ++ [(u, c)]) := by
  intro a b k hne hadj ha hb
  rw [lookupC_append_single] at ha hb
  rcases ha with ha | ⟨han, hua, hck⟩
  · rcases hb with hb | ⟨hbn, hub, hck⟩
    · exact hp a b k hne hadj ha hb
    · subst hub
      subst hck
      exact hok a (fullNbrs_symm.mp hadj) ha
  · subst hua
    subst hck
    rcases hb with hb | ⟨hbn, hub, hck⟩
    · exact hok b hadj hb
    · exact hne (hub.symm ▸ rfl)

/-- Appending a fresh vertex with a strictly larger color than every color
already assigned preserves properness. -/
theorem colorsProper_append_seed {adj : Adj} {col : Coloring} {v : String}
    {c : Nat} (hp : ColorsProper adj col)
    (hlt : ∀ x k, lookupC col x = some k → k < c) :
    ColorsProper adj (col ++ [(v, c)]) := by
  intro a b k hne hadj ha hb
  rw [lookupC_append_single] at ha hb
  rcases ha with ha | ⟨han, hva, hck⟩
  · rcases hb with hb | ⟨hbn, hvb, hck⟩
    · exact hp a b k hne hadj ha hb
    · subst hck
      exact absurd (hlt a c ha) (by omega)
  · subst hck
    rcases hb with hb | ⟨hbn, hvb, hck⟩
    · exact absurd (hlt b c hb) (by omega)
    · exact hne (hva.symm.trans hvb)

/-- What one step of the inner loop can do. -/
theorem growStep_cases (adj : Adj) (c : Nat) (v : String) (col : Coloring)
    (u : String) :
    growStep adj c v col u = col ∨
      (growStep adj c v col u = col ++ [(u, c)] ∧ lookupC col u = none ∧
        okToJoin adj col c u = true) := by
  unfold growStep
  by_cases h1 : lookupC col u = none
  · by_cases h2 : okToJoin adj col c u = true
    · by_cases h3 : v ≠ u
      · right
        rw [if_pos h1, if_pos h2, if_pos h3]
        exact ⟨rfl, h1, h2⟩
      · left
        rw [if_pos h1, if_pos h2, if_neg h3]
    · left
      rw [if_pos h1, if_neg (by simpa using h2)]
  · left
    rw [if_neg h1]

/-- The inner loop preserves properness and key uniqueness, never drops an
assignment, and only ever adds the current color to vertices of the list
it scans. -/
theorem innerFold_spec (adj : Adj) (c : Nat) (v : String) :
    ∀ (l : List String) (col : Coloring),
      ColorsProper adj col → KeysNodup col →
      ColorsProper adj (l.foldl (growStep adj c v) col) ∧
      KeysNodup (l.foldl (growStep adj c v) col) ∧
      (∀ x k, lookupC col x = some k →
        lookupC (l.foldl (growStep adj c v) col) x = some k) ∧
      (∀ x k, lookupC (l.foldl (growStep adj c v) col) x = some k →
        lookupC col x = some k ∨ (k = c ∧ x ∈ l)) := by
  intro l
  induction l with
  | nil =>
    intro col hp hn
    exact ⟨hp, hn, fun x k h => h, fun x k h => Or.inl h⟩
  | cons u rest ih =>
    intro col hp hn
    rw [List.foldl_cons]
    rcases growStep_cases adj c v col u with heq | ⟨heq, hnone, hok⟩
    · rw [heq]
      obtain ⟨p1, p2, p3, p4⟩ := ih col hp hn
      refine ⟨p1, p2, p3, fun x k h => ?_⟩
      rcases p4 x k h with h | ⟨hk, hx⟩
      · exact Or.inl h
      · exact Or.inr ⟨hk, List.mem_cons_of_mem _ hx⟩
    · rw [heq]
      have hok' := okToJoin_iff.mp hok
      have hp' := colorsProper_append hp hnone hok'
      have hn' : KeysNodup (col ++ [(u, c)]) := keysNodup_append hn hnone
      obtain ⟨p1, p2, p3, p4⟩ := ih _ hp' hn'
      refine ⟨p1, p2, fun x k h => p3 x k (lookupC_append_some h),
        fun x k h => ?_⟩
      rcases p4 x k h with h | ⟨hk, hx⟩
      · rcases lookupC_append_single.mp h with h | ⟨_, hux, hck⟩
        · exact Or.inl h
        · exact Or.inr ⟨hck.symm, hux ▸ List.mem_cons_self _ _⟩
      · exact Or.inr ⟨hk, List.mem_cons_of_mem _ hx⟩

theorem outerOK_init (adj : Adj) : OuterOK adj ([], 1) := by
  refine ⟨colorsProper_nil adj, keysNodup_nil, le_refl 1, ?_, ?_, ?_⟩
  · intro x k h; simp [lookupC] at h
  · intro k h1 h2; omega
  · intro x k h; simp [lookupC] at h

theorem outerStep_spec (adj : Adj) (st : Coloring × Nat) (v : String)
    (h : OuterOK adj st) (hv : v ∈ verticesList adj) :
    OuterOK adj (outerStep adj st v) ∧
      lookupC (outerStep adj st v).1 v ≠ none ∧
      (∀ x k, lookupC st.1 x = some k →
        lookupC (outerStep adj st v).1 x = some k) := by
  unfold outerStep
  by_cases hcol : lookupC st.1 v = none
  · rw [if_pos hcol]
    obtain ⟨hp, hn, hc, hb, hg, hd⟩ := h
    set c := st.2 with hcdef
    set col1 := st.1 ++ [(v, c)] with hcol1
    have hp1 : ColorsProper adj col1 :=
      colorsProper_append_seed hp (fun x k hx => (hb x k hx).2)
    have hn1 : KeysNodup col1 := keysNodup_append hn hcol
    have hv1 : lookupC col1 v = some c := by
      rw [hcol1, lookupC_append_none hcol]
      simp [lookupC]
    obtain ⟨p1, p2, p3, p4⟩ := innerFold_spec adj c v (order adj) col1 hp1 hn1
    set res := (order adj).foldl (growStep adj c v) col1 with hres
    have hmono : ∀ x k, lookupC st.1 x = some k → lookupC res x = some k :=
      fun x k hx => p3 x k (lookupC_append_some hx)
    have hcol1_some : ∀ x k, lookupC col1 x = some k →
        lookupC st.1 x = some k ∨ (x = v ∧ k = c) := by
      intro x k hx
      rcases lookupC_append_single.mp hx with hx | ⟨_, hvx, hck⟩
      · exact Or.inl hx
      · exact Or.inr ⟨hvx.symm, hck.symm⟩
    refine ⟨⟨p1, p2, by show 1 ≤ c + 1; omega, ?_, ?_, ?_⟩, ?_, hmono⟩
    · intro x k hx
      rcases p4 x k hx with hx | ⟨hk, _⟩
      · rcases hcol1_some x k hx with hx | ⟨_, hk⟩
        · have := hb x k hx
          simp only
          omega
        · subst hk
          simp only
          omega
      · subst hk
        simp only
        omega
    · intro k h1 h2
      simp only at h2
      by_cases hk : k < c
      · obtain ⟨x, hx⟩ := hg k h1 hk
        exact ⟨x, hmono x k hx⟩
      · have hkc : k = c := by omega
        subst hkc
        exact ⟨v, p3 v c hv1⟩
    · intro x k hx
      rcases p4 x k hx with hx | ⟨_, hxl⟩
      · rcases hcol1_some x k hx with hx | ⟨hxv, _⟩
        · exact hd x k hx
        · exact hxv ▸ hv
      · exact mem_order.mp hxl
    · have := p3 v c hv1
      simp only
      rw [this]
      exact fun h => Option.noConfusion h
  · rw [if_neg hcol]
    exact ⟨h, hcol, fun x k hx => hx⟩

theorem outerFold_spec (adj : Adj) :
    ∀ (l : List String), (∀ v ∈ l, v ∈ verticesList adj) →
    ∀ (st : Coloring × Nat), OuterOK adj st →
      OuterOK adj (l.foldl (outerStep adj) st) ∧
      (∀ v ∈ l, lookupC (l.foldl (outerStep adj) st).1 v ≠ none) ∧
      (∀ x k, lookupC st.1 x = some k →
        lookupC (l.foldl (outerStep adj) st).1 x = some k) := by
  intro l
  induction l with
  | nil =>
    intro _ st h
    exact ⟨h, by simp, fun x k hx => hx⟩
  | cons v rest ih =>
    intro hl st h
    rw [List.foldl_cons]
    have hv : v ∈ verticesList adj := hl v (List.mem_cons_self _ _)
    obtain ⟨h1, h2, h3⟩ := outerStep_spec adj st v h hv
    obtain ⟨q1, q2, q3⟩ := ih (fun w hw => hl w (List.mem_cons_of_mem _ hw))
      (outerStep adj st v) h1
    refine ⟨q1, ?_, fun x k hx => q3 x k (h3 x k hx)⟩
    intro w hw
    rcases List.mem_cons.mp hw with hw | hw
    · rw [hw]
      cases hk : lookupC (outerStep adj st v).1 v with
      | none => exact absurd hk h2
      | some k =>
        rw [q3 v k hk]
        exact fun h => Option.noConfusion h
    · exact q2 w hw

/-! ### Master facts about `welsh_powell` -/

theorem welsh_powell_outerOK (adj : Adj) :
    OuterOK adj ((order adj).foldl (outerStep adj) ([], 1)) ∧
      ∀ v ∈ order adj,
        lookupC ((order adj).foldl (outerStep adj) ([], 1)).1 v ≠ none := by
  obtain ⟨h1, h2, _⟩ := outerFold_spec adj (order adj)
    (fun v hv => mem_order.mp hv) ([], 1) (outerOK_init adj)
  exact ⟨h1, h2⟩

theorem welsh_powell_proper {adj : Adj} {a b : String} {k : Nat}
    (hne : a ≠ b) (hadj : b ∈ fullNbrs adj a)
    (ha : lookupC (welsh_powell adj) a = some k) :
    lookupC (welsh_powell adj) b ≠ some k :=
  (welsh_powell_outerOK adj).1.proper a b k hne hadj ha

theorem welsh_powell_total {adj : Adj} {v : String}
    (hv : v ∈ verticesList adj) :
    ∃ k, lookupC (welsh_powell adj) v = some k := by
  have := (welsh_powell_outerOK adj).2 v (mem_order.mpr hv)
  cases hk : lookupC (welsh_powell adj) v with
  | none => exact absurd hk this
  | some k => exact ⟨k, rfl⟩

theorem welsh_powell_keysNodup (adj : Adj) : KeysNodup (welsh_powell adj) :=
  (welsh_powell_outerOK adj).1.nodup

theorem welsh_powell_bounds {adj : Adj} {x : String} {k : Nat}
    (h : lookupC (welsh_powell adj) x = some k) :
    1 ≤ k ∧ k < ((order adj).foldl (outerStep adj) ([], 1)).2 :=
  (welsh_powell_outerOK adj).1.bounds x k h

theorem welsh_powell_contig (adj : Adj) {k : Nat} (h1 : 1 ≤ k)
    (h2 : k < ((order adj).foldl (outerStep adj) ([], 1)).2) :
    ∃ x, lookupC (welsh_powell adj) x = some k :=
  (welsh_powell_outerOK adj).1.contig k h1 h2

theorem welsh_powell_dom {adj : Adj} {x : String} {k : Nat}
    (h : lookupC (welsh_powell adj) x = some k) : x ∈ verticesList adj :=
  (welsh_powell_outerOK adj).1.dom x k h

theorem welsh_powell_proper_both {adj : Adj} {a b : String}
    (hne : a ≠ b) (hadj : b ∈ fullNbrs adj a) :
    ∃ ca cb, lookupC (welsh_powell adj) a = some ca ∧
      lookupC (welsh_powell adj) b = some cb ∧ ca ≠ cb := by
  obtain ⟨hav, hbv⟩ := fullNbrs_endpoints_mem hadj
  obtain ⟨ca, hca⟩ := welsh_powell_total hav
  obtain ⟨cb, hcb⟩ := welsh_powell_total hbv
  refine ⟨ca, cb, hca, hcb, fun hcc => ?_⟩
  exact welsh_powell_proper hne hadj hca (hcc ▸ hcb)

/-! ### Determinism: `welsh_powell` only depends on the graph the
adjacency dict describes -/

theorem graphEqB_spec {a1 a2 : Adj} (h : graphEqB a1 a2 = true) :
    (∀ v, v ∈ adjKeys a1 ↔ v ∈ adjKeys a2) ∧
      (∀ v u, u ∈ adjNbrs a1 v ↔ u ∈ adjNbrs a2 v) := by
  unfold graphEqB at h
  rw [Bool.and_eq_true, Bool.and_eq_true] at h
  obtain ⟨⟨h12, h21⟩, hn⟩ := h
  rw [List.all_eq_true] at h12 h21 hn
  constructor
  · intro v
    constructor
    · intro hv
      simpa using h12 v hv
    · intro hv
      simpa using h21 v hv
  · intro v u
    by_cases hv : v ∈ adjKeys a1 ++ adjKeys a2
    · have := hn v hv
      rw [Bool.and_eq_true, List.all_eq_true, List.all_eq_true] at this
      obtain ⟨hf, hb⟩ := this
      constructor
      · intro hu
        simpa using hf u hu
      · intro hu
        simpa using hb u hu
    · rw [List.mem_append] at hv
      push_neg at hv
      rw [adjNbrs_eq_nil_of_not_key hv.1, adjNbrs_eq_nil_of_not_key hv.2]

theorem all_congr_mem {l1 l2 : List String} (h : ∀ x, x ∈ l1 ↔ x ∈ l2)
    (f : String → Bool) : l1.all f = l2.all f := by
  cases h1 : l1.all f with
  | true =>
    rw [List.all_eq_true] at h1
    exact (List.all_eq_true.mpr (fun x hx => h1 x ((h x).mpr hx))).symm
  | false =>
    cases h2 : l2.all f with
    | true =>
      rw [List.all_eq_true] at h2
      exact absurd (List.all_eq_true.mpr (fun x hx => h2 x ((h x).mp hx))) (by
        rw [h1]; exact fun hc => Bool.noConfusion hc)
    | false => rfl

section Congruence

variable {a1 a2 : Adj}

theorem fullNbrs_congr (hN : NbrsIff a1 a2) (v u : String) :
    u ∈ fullNbrs a1 v ↔ u ∈ fullNbrs a2 v := by
  rw [mem_fullNbrs, mem_fullNbrs, hN v u, hN u v]

theorem degFull_congr (hN : NbrsIff a1 a2) (v : String) :
    degFull a1 v = degFull a2 v := by
  unfold degFull
  exact ((List.perm_ext_iff_of_nodup (fullNbrs_nodup a1 v)
    (fullNbrs_nodup a2 v)).mpr (fullNbrs_congr hN v)).length_eq

theorem verticesList_congr (hK : KeysIff a1 a2) (hN : NbrsIff a1 a2) :
    ∀ x, x ∈ verticesList a1 ↔ x ∈ verticesList a2 := by
  intro x
  rw [mem_verticesList_iff, mem_verticesList_iff, hK x]
  constructor
  · rintro (h | ⟨w, hw⟩)
    · exact Or.inl h
    · exact Or.inr ⟨w, (hN w x).mp hw⟩
  · rintro (h | ⟨w, hw⟩)
    · exact Or.inl h
    · exact Or.inr ⟨w, (hN w x).mpr hw⟩

theorem wpLE_congr (hN : NbrsIff a1 a2) (x y : String) :
    wpLE a1 x y ↔ wpLE a2 x y := by
  unfold wpLE
  rw [degFull_congr hN x, degFull_congr hN y]

theorem order_congr (hK : KeysIff a1 a2) (hN : NbrsIff a1 a2) :
    order a1 = order a2 := by
  haveI : IsAntisymm String (wpLE a1) := ⟨fun _ _ => wpLE_antisymm a1⟩
  have hperm : (order a1).Perm (order a2) :=
    ((order_perm a1).trans ((List.perm_ext_iff_of_nodup (verticesList_nodup a1)
      (verticesList_nodup a2)).mpr (verticesList_congr hK hN))).trans
      (order_perm a2).symm
  have hs1 : (order a1).Sorted (wpLE a1) := order_sorted a1
  have hs2 : (order a2).Sorted (wpLE a1) :=
    (order_sorted a2).imp (fun h => (wpLE_congr hN _ _).mpr h)
  exact List.eq_of_perm_of_sorted hperm hs1 hs2

theorem okToJoin_congr (hN : NbrsIff a1 a2) (col : Coloring) (c : Nat)
    (u : String) :
    okToJoin a1 col c u = okToJoin a2 col c u := by
  unfold okToJoin
  exact all_congr_mem (fullNbrs_congr hN u) _

theorem growStep_congr (hN : NbrsIff a1 a2) (c : Nat) (v : String)
    (col : Coloring) (u : String) :
    growStep a1 c v col u = growStep a2 c v col u := by
  unfold growStep
  rw [okToJoin_congr hN col c u]

theorem outerStep_congr (hK : KeysIff a1 a2) (hN : NbrsIff a1 a2)
    (st : Coloring × Nat) (v : String) :
    outerStep a1 st v = outerStep a2 st v := by
  unfold outerStep
  rw [order_congr hK hN]
  rw [List.foldl_ext _ _ _
    (fun col u _ => growStep_congr hN st.2 v col u)]

theorem welsh_powell_congr (hK : KeysIff a1 a2) (hN : NbrsIff a1 a2) :
    welsh_powell a1 = welsh_powell a2 := by
  unfold welsh_powell
  rw [order_congr hK hN]
  rw [List.foldl_ext _ _ _ (fun st v _ => outerStep_congr hK hN st v)]

end Congruence

/-! ### The schedule mapper -/

theorem itemLE_total (p q : String × Nat) : itemLE p q ∨ itemLE q p := by
  unfold itemLE
  rcases Nat.lt_trichotomy p.2 q.2 with h | h | h
  · left; left; exact h
  · rcases strLe_total p.1 q.1 with hs | hs
    · left; right; exact ⟨h, hs⟩
    · right; right; exact ⟨h.symm, hs⟩
  · right; left; exact h

theorem itemLE_trans {p q s : String × Nat} (h1 : itemLE p q)
    (h2 : itemLE q s) : itemLE p s := by
  unfold itemLE at h1 h2 ⊢
  rcases h1 with h1 | ⟨h1, h1s⟩
  · rcases h2 with h2 | ⟨h2, _⟩
    · left; omega
    · left; omega
  · rcases h2 with h2 | ⟨h2, h2s⟩
    · left; omega
    · right; exact ⟨by omega, strLe_trans h1s h2s⟩

theorem schedule_items_perm (col : Coloring) :
    (col.insertionSort itemLE).Perm col :=
  List.perm_insertionSort _ _

theorem schedule_items_sorted (col : Coloring) :
    (col.insertionSort itemLE).Sorted itemLE := by
  haveI : IsTotal (String × Nat) itemLE := ⟨itemLE_total⟩
  haveI : IsTrans (String × Nat) itemLE := ⟨fun _ _ _ => itemLE_trans⟩
  exact List.sorted_insertionSort _ _

theorem schedule_length (col : Coloring) (h d : Int) :
    (schedule_from_coloring col h d).length = col.length := by
  unfold schedule_from_coloring
  rw [List.length_map]
  exact (schedule_items_perm col).length_eq

theorem schedule_sorted (col : Coloring) (h d : Int) :
    (schedule_from_coloring col h d).Pairwise (fun r1 r2 =>
      r1.Slot < r2.Slot ∨ (r1.Slot = r2.Slot ∧
        strLe r1.Exam r2.Exam = true)) := by
  unfold schedule_from_coloring
  rw [List.pairwise_map]
  exact (schedule_items_sorted col).imp (fun hpq => hpq)

theorem schedule_mem_iff {col : Coloring} {h d : Int} {r : Row} :
    r ∈ schedule_from_coloring col h d ↔ ∃ p ∈ col, r = mkRow h d p := by
  unfold schedule_from_coloring
  rw [List.mem_map]
  constructor
  · rintro ⟨p, hp, hr⟩
    exact ⟨p, (schedule_items_perm col).mem_iff.mp hp, hr.symm⟩
  · rintro ⟨p, hp, hr⟩
    exact ⟨p, (schedule_items_perm col).mem_iff.mpr hp, hr.symm⟩

theorem keysNodup_filter_single {col : Coloring} {e : String} {c : Nat}
    (hnd : KeysNodup col) (hmem : (e, c) ∈ col) :
    col.filter (fun p => decide (p.1 = e)) = [(e, c)] := by
  induction col with
  | nil => simp at hmem
  | cons q rest ih =>
    unfold KeysNodup at hnd
    rw [List.map_cons, List.nodup_cons] at hnd
    obtain ⟨hq, hrest⟩ := hnd
    rcases List.mem_cons.mp hmem with hh | hh
    · subst hh
      rw [List.filter_cons_of_pos (by simp)]
      have : rest.filter (fun p => decide (p.1 = e)) = [] := by
        rw [List.filter_eq_nil_iff]
        intro p hp
        simp only [decide_eq_true_eq]
        intro hpe
        have hmm : p.1 ∈ rest.map Prod.fst := List.mem_map_of_mem Prod.fst hp
        rw [hpe] at hmm
        exact hq hmm
      rw [this]
    · have hqe : ¬ q.1 = e := by
        intro hqe
        apply hq
        rw [hqe]
        exact List.mem_map_of_mem Prod.fst hh
      rw [List.filter_cons_of_neg (by simpa using hqe)]
      exact ih hrest hh

theorem keysNodup_key_unique {col : Coloring} {e : String} {c c' : Nat}
    (hnd : KeysNodup col) (h1 : (e, c) ∈ col) (h2 : (e, c') ∈ col) :
    c = c' := by
  have hs := keysNodup_filter_single hnd h1
  have h2f : (e, c') ∈ col.filter (fun p => decide (p.1 = e)) :=
    List.mem_filter.mpr ⟨h2, by simp⟩
  rw [hs] at h2f
  simpa using (List.mem_singleton.mp h2f).symm

theorem schedule_filter_exam {col : Coloring} {e : String} {c : Nat}
    (hnd : KeysNodup col) (hmem : (e, c) ∈ col) (h d : Int) :
    ((schedule_from_coloring col h d).filter
      (fun r => decide (r.Exam = e))).length = 1 := by
  unfold schedule_from_coloring
  rw [List.filter_map, List.length_map]
  have hfun : ((fun r => decide (r.Exam = e)) ∘ mkRow h d) =
      (fun p => decide (p.1 = e)) := by
    funext p
    simp [mkRow, Function.comp]
  rw [hfun]
  rw [((schedule_items_perm col).filter _).length_eq,
    keysNodup_filter_single hnd hmem]
  rfl

/-! ### The claims -/

/-- C1: for every finite conflict graph whose adjacency is symmetric and
irreflexive, the coloring returned by `welsh_powell` is proper: for every
edge `(a, b)` of the graph, the colors assigned to `a` and `b` exist and
differ.  This holds for any such graph, including ones with isolated
vertices, disconnected components, and complete subgraphs. -/
theorem claim_C1_proper_coloring (adj : Adj) (_hs : symmB adj = true)
    (hi : irreflB adj = true) {a b : String} (hab : b ∈ adjNbrs adj a) :
    ∃ ca cb, lookupC (welsh_powell adj) a = some ca ∧
      lookupC (welsh_powell adj) b = some cb ∧ ca ≠ cb := by
  have hne : a ≠ b := by
    intro heq
    subst heq
    obtain ⟨p, hp, hpa, hmem⟩ := mem_adjNbrs.mp hab
    unfold irreflB at hi
    rw [List.all_eq_true] at hi
    have hirr := hi p hp
    simp only [decide_eq_true_eq] at hirr
    rw [hpa] at hirr
    exact hirr hmem
  exact welsh_powell_proper_both hne (adjNbrs_subset_fullNbrs hab)

/-- Witness for C1 on the two-vertex graph with the single edge A-B. -/
theorem claim_C1_witness :
    symmB [("A", ["B"]), ("B", ["A"])] = true ∧
    irreflB [("A", ["B"]), ("B", ["A"])] = true ∧
    ("B" ∈ adjNbrs [("A", ["B"]), ("B", ["A"])] "A") ∧
    ∃ ca cb,
      lookupC (welsh_powell [("A", ["B"]), ("B", ["A"])]) "A" = some ca ∧
      lookupC (welsh_powell [("A", ["B"]), ("B", ["A"])]) "B" = some cb ∧
      ca ≠ cb :=
  ⟨by decide, by decide, by decide,
    claim_C1_proper_coloring _ (by decide) (by decide) (by decide)⟩

/-- C2: the code, not the claim — `build_conflicts_from_enrollments`
produces a self-loop when one student's exam list contains the same exam
twice, because the index loop pairs `courses[i]` with `courses[j]` for
`i < j` without deduplication.  On the enrollment `S1 -> [Math, Math]` the
built graph lists Math as its own neighbour, violating irreflexivity. -/
theorem claim_C2_duplicate_self_loop :
    build_conflicts_from_enrollments [("S1", ["Math", "Math"])] =
      [("Math", ["Math"])] ∧
    "Math" ∈ adjNbrs
      (build_conflicts_from_enrollments [("S1", ["Math", "Math"])]) "Math" :=
  ⟨by decide, by decide⟩

/-- C3, counterexample: with slot duration 0 the mapper does not reject
the call; it returns a schedule whose two slots share the degenerate
window 09:00 - 09:00. -/
theorem claim_C3_counterexample :
    schedule_from_coloring [("A", 1), ("B", 2)] 9 0 =
      [{ Exam := "A", Slot := 1, start := 9, duration := 0,
         TimeLabel := "Slot 1 (09:00 - 09:00)" },
       { Exam := "B", Slot := 2, start := 9, duration := 0,
         TimeLabel := "Slot 2 (09:00 - 09:00)" }] := by decide

/-- C3, amended: `schedule_from_coloring` performs no validation of
`slot_duration`; for any non-positive duration it still returns one record
per coloring entry with `start = slot_start_hour + (slot - 1) * duration`,
and start times are non-increasing in the slot number, i.e. the windows
are degenerate or overlapping. -/
theorem claim_C3_no_validation (col : Coloring) (h d : Int) (hd : d ≤ 0) :
    (schedule_from_coloring col h d).length = col.length ∧
    (∀ r ∈ schedule_from_coloring col h d,
      r.start = h + ((r.Slot : Int) - 1) * d ∧ r.duration = d) ∧
    (∀ r1 ∈ schedule_from_coloring col h d,
      ∀ r2 ∈ schedule_from_coloring col h d,
        r1.Slot < r2.Slot → r2.start ≤ r1.start) := by
  refine ⟨schedule_length col h d, ?_, ?_⟩
  · intro r hr
    obtain ⟨p, _, hrp⟩ := schedule_mem_iff.mp hr
    subst hrp
    exact ⟨rfl, rfl⟩
  · intro r1 h1 r2 h2 hslot
    obtain ⟨p1, _, he1⟩ := schedule_mem_iff.mp h1
    obtain ⟨p2, _, he2⟩ := schedule_mem_iff.mp h2
    subst he1
    subst he2
    simp only [mkRow] at hslot ⊢
    have hle : ((p1.2 : Int) - 1) ≤ ((p2.2 : Int) - 1) := by omega
    have hmul := mul_le_mul_of_nonpos_right hle hd
    exact add_le_add_left hmul h

/-- Witness for the amended C3 at duration 0. -/
theorem claim_C3_no_validation_witness :
    (schedule_from_coloring [("A", 1), ("B", 2)] 9 0).length =
      ([("A", 1), ("B", 2)] : Coloring).length ∧
    (∀ r ∈ schedule_from_coloring [("A", 1), ("B", 2)] 9 0,
      r.start = 9 + ((r.Slot : Int) - 1) * 0 ∧ r.duration = 0) ∧
    (∀ r1 ∈ schedule_from_coloring [("A", 1), ("B", 2)] 9 0,
      ∀ r2 ∈ schedule_from_coloring [("A", 1), ("B", 2)] 9 0,
        r1.Slot < r2.Slot → r2.start ≤ r1.start) :=
  claim_C3_no_validation [("A", 1), ("B", 2)] 9 0 (by decide)

/-- C4: every vertex of the graph — every adjacency key and every vertex
occurring in a neighbour set — appears as a key of the returned coloring
exactly once, with some color assigned. -/
theorem claim_C4_totality (adj : Adj) {v : String}
    (hv : v ∈ adjKeys adj ∨ ∃ w, v ∈ adjNbrs adj w) :
    ((welsh_powell adj).map Prod.fst).count v = 1 ∧
    ∃ k, lookupC (welsh_powell adj) v = some k := by
  have hv' : v ∈ verticesList adj := mem_verticesList_iff.mpr hv
  obtain ⟨k, hk⟩ := welsh_powell_total hv'
  have hmem : v ∈ (welsh_powell adj).map Prod.fst := mem_keys_of_lookupC_some hk
  have hnd : ((welsh_powell adj).map Prod.fst).Nodup := welsh_powell_keysNodup adj
  constructor
  · have hle := List.nodup_iff_count_le_one.mp hnd v
    have hge := List.count_pos_iff.mpr hmem
    omega
  · exact ⟨k, hk⟩

/-- Witness for C4 on the one-edge graph, at its key A. -/
theorem claim_C4_witness :
    (("A" : String) ∈ adjKeys [("A", ["B"])] ∨
      ∃ w, ("A" : String) ∈ adjNbrs [("A", ["B"])] w) ∧
    ((welsh_powell [("A", ["B"])]).map Prod.fst).count "A" = 1 ∧
    (∃ k, lookupC (welsh_powell [("A", ["B"])]) "A" = some k) :=
  ⟨Or.inl (by decide), claim_C4_totality _ (Or.inl (by decide))⟩

/-- C5: the set of colors used by the returned coloring is exactly
`{1, ..., k}` for some `k ≥ 0`: every assigned color is a positive integer
at most `k`, and every value from 1 to `k` is assigned to some vertex. -/
theorem claim_C5_color_contiguity (adj : Adj) :
    ∃ k, (∀ x j, lookupC (welsh_powell adj) x = some j → 1 ≤ j ∧ j ≤ k) ∧
      (∀ j, 1 ≤ j → j ≤ k → ∃ x, lookupC (welsh_powell adj) x = some j) := by
  refine ⟨((order adj).foldl (outerStep adj) ([], 1)).2 - 1, ?_, ?_⟩
  · intro x j hx
    have := welsh_powell_bounds hx
    omega
  · intro j h1 h2
    apply welsh_powell_contig adj h1
    have hc := (welsh_powell_outerOK adj).1.cpos
    omega

/-- Witness for C5 on the one-edge graph. -/
theorem claim_C5_witness :
    ∃ k, (∀ x j, lookupC (welsh_powell [("A", ["B"])]) x = some j →
        1 ≤ j ∧ j ≤ k) ∧
      (∀ j, 1 ≤ j → j ≤ k →
        ∃ x, lookupC (welsh_powell [("A", ["B"])]) x = some j) :=
  claim_C5_color_contiguity [("A", ["B"])]

/-- C6: the vertex order `welsh_powell` processes is computed once: it is
a permutation of the vertex set, sorted by descending symmetrised degree
with ties broken by ascending lexicographic identifier, and the whole
coloring is a single fold over that fixed list. -/
theorem claim_C6_fixed_order (adj : Adj) :
    (order adj).Perm (verticesList adj) ∧
    (order adj).Pairwise (fun x y =>
      degFull adj y < degFull adj x ∨
        (degFull adj x = degFull adj y ∧ strLe x y = true)) ∧
    welsh_powell adj = ((order adj).foldl (outerStep adj) ([], 1)).1 :=
  ⟨order_perm adj, order_sorted adj, rfl⟩

/-- Witness for C6 on the one-edge graph. -/
theorem claim_C6_witness :
    (order [("A", ["B"])]).Perm (verticesList [("A", ["B"])]) ∧
    (order [("A", ["B"])]).Pairwise (fun x y =>
      degFull [("A", ["B"])] y < degFull [("A", ["B"])] x ∨
        (degFull [("A", ["B"])] x = degFull [("A", ["B"])] y ∧
          strLe x y = true)) ∧
    welsh_powell [("A", ["B"])] =
      ((order [("A", ["B"])]).foldl (outerStep [("A", ["B"])]) ([], 1)).1 :=
  claim_C6_fixed_order [("A", ["B"])]

/-- C7: with a self-loop in the input adjacency, `welsh_powell` still
returns a total coloring in which the self-loop is ignored: the
self-looped vertex receives a color, every vertex receives a color, and
every non-loop edge of the symmetrised graph joins differently colored
vertices. -/
theorem claim_C7_self_loop_ignored (adj : Adj) {a : String}
    (ha : a ∈ adjNbrs adj a) :
    (∃ c, lookupC (welsh_powell adj) a = some c) ∧
    (∀ v ∈ verticesList adj, ∃ c, lookupC (welsh_powell adj) v = some c) ∧
    (∀ x y, x ≠ y → y ∈ fullNbrs adj x →
      ∀ k, lookupC (welsh_powell adj) x = some k →
        lookupC (welsh_powell adj) y ≠ some k) :=
  ⟨welsh_powell_total (src_mem_verticesList ha),
    fun _ hv => welsh_powell_total hv,
    fun _ _ hne hadj _ hx => welsh_powell_proper hne hadj hx⟩

/-- Witness for C7 on a graph whose vertex A lists itself. -/
theorem claim_C7_witness :
    ("A" ∈ adjNbrs [("A", ["A", "B"]), ("B", ["A"])] "A") ∧
    (∃ c, lookupC (welsh_powell [("A", ["A", "B"]), ("B", ["A"])]) "A" =
      some c) ∧
    (∀ v ∈ verticesList [("A", ["A", "B"]), ("B", ["A"])],
      ∃ c, lookupC (welsh_powell [("A", ["A", "B"]), ("B", ["A"])]) v =
        some c) ∧
    (∀ x y, x ≠ y → y ∈ fullNbrs [("A", ["A", "B"]), ("B", ["A"])] x →
      ∀ k, lookupC (welsh_powell [("A", ["A", "B"]), ("B", ["A"])]) x =
          some k →
        lookupC (welsh_powell [("A", ["A", "B"]), ("B", ["A"])]) y ≠
          some k) :=
  ⟨by decide, claim_C7_self_loop_ignored _ (by decide)⟩

/-- C8: for every coloring dict and any parameters, the schedule has one
record per coloring entry, exactly one record per exam, each record
carries the exam's slot and `start = slot_start_hour + (slot - 1) *
slot_duration`, and the output is sorted by ascending slot, then ascending
exam identifier. -/
theorem claim_C8_schedule_shape (col : Coloring) (h d : Int)
    (hnd : KeysNodup col) :
    (schedule_from_coloring col h d).length = col.length ∧
    (schedule_from_coloring col h d).Pairwise (fun r1 r2 =>
      r1.Slot < r2.Slot ∨
        (r1.Slot = r2.Slot ∧ strLe r1.Exam r2.Exam = true)) ∧
    (∀ e c, (e, c) ∈ col →
      ((schedule_from_coloring col h d).filter
        (fun r => decide (r.Exam = e))).length = 1 ∧
      (∀ r ∈ schedule_from_coloring col h d, r.Exam = e →
        r.Slot = c ∧ r.start = h + ((c : Int) - 1) * d)) := by
  refine ⟨schedule_length col h d, schedule_sorted col h d, ?_⟩
  intro e c hmem
  refine ⟨schedule_filter_exam hnd hmem h d, ?_⟩
  intro r hr hre
  obtain ⟨p, hp, hrp⟩ := schedule_mem_iff.mp hr
  obtain ⟨p1, p2⟩ := p
  subst hrp
  simp only [mkRow] at hre
  subst hre
  have hc := keysNodup_key_unique hnd hmem hp
  subst hc
  exact ⟨rfl, rfl⟩

/-- Witness for C8 on a two-entry coloring. -/
theorem claim_C8_witness :
    (schedule_from_coloring [("B", 2), ("A", 1)] 9 2).length =
      ([("B", 2), ("A", 1)] : Coloring).length ∧
    (schedule_from_coloring [("B", 2), ("A", 1)] 9 2).Pairwise
      (fun r1 r2 => r1.Slot < r2.Slot ∨
        (r1.Slot = r2.Slot ∧ strLe r1.Exam r2.Exam = true)) ∧
    (∀ e c, (e, c) ∈ ([("B", 2), ("A", 1)] : Coloring) →
      ((schedule_from_coloring [("B", 2), ("A", 1)] 9 2).filter
        (fun r => decide (r.Exam = e))).length = 1 ∧
      (∀ r ∈ schedule_from_coloring [("B", 2), ("A", 1)] 9 2, r.Exam = e →
        r.Slot = c ∧ r.start = 9 + ((c : Int) - 1) * 2)) :=
  claim_C8_schedule_shape [("B", 2), ("A", 1)] 9 2 (by decide)

/-- C9: `welsh_powell` is deterministic — it is a pure function of the
graph its adjacency dict describes.  Two adjacency dicts with the same key
set and the same neighbour set at every key (regardless of entry order)
produce identical colorings. -/
theorem claim_C9_determinism {a1 a2 : Adj} (h : graphEqB a1 a2 = true) :
    welsh_powell a1 = welsh_powell a2 := by
  obtain ⟨hK, hN⟩ := graphEqB_spec h
  exact welsh_powell_congr hK hN

/-- Witness for C9 on two entry orders of the same one-edge graph. -/
theorem claim_C9_witness :
    graphEqB [("A", ["B"]), ("B", ["A"])] [("B", ["A"]), ("A", ["B"])] =
      true ∧
    welsh_powell [("A", ["B"]), ("B", ["A"])] =
      welsh_powell [("B", ["A"]), ("A", ["B"])] :=
  ⟨by decide, claim_C9_determinism (by decide)⟩

/-- C10: `welsh_powell` accepts an adjacency that is neither symmetric
nor closed under its neighbour sets: every vertex that occurs as a key or
inside any neighbour set is colored, and the coloring is proper with
respect to the symmetrised edge set. -/
theorem claim_C10_symmetrization (adj : Adj) :
    (∀ v, (v ∈ adjKeys adj ∨ ∃ w, v ∈ adjNbrs adj w) →
      ∃ c, lookupC (welsh_powell adj) v = some c) ∧
    (∀ a b, a ≠ b → b ∈ fullNbrs adj a →
      ∃ ca cb, lookupC (welsh_powell adj) a = some ca ∧
        lookupC (welsh_powell adj) b = some cb ∧ ca ≠ cb) :=
  ⟨fun _ hv => welsh_powell_total (mem_verticesList_iff.mpr hv),
    fun _ _ hne hadj => welsh_powell_proper_both hne hadj⟩

/-- Witness for C10 on a non-symmetric dict whose vertex B occurs only
inside a neighbour set. -/
theorem claim_C10_witness :
    (∀ v, (v ∈ adjKeys [("A", ["B"])] ∨
        ∃ w, v ∈ adjNbrs [("A", ["B"])] w) →
      ∃ c, lookupC (welsh_powell [("A", ["B"])]) v = some c) ∧
    (∀ a b, a ≠ b → b ∈ fullNbrs [("A", ["B"])] a →
      ∃ ca cb, lookupC (welsh_powell [("A", ["B"])]) a = some ca ∧
        lookupC (welsh_powell [("A", ["B"])]) b = some cb ∧ ca ≠ cb) :=
  claim_C10_symmetrization [("A", ["B"])]

end ExamScheduler
